import Mathlib

/-!
Verification of the message-sequencing service in `app/server.py`.

The service accepts requests `(sender_name, text)`. Each request runs one
database transaction: it reads (or lazily creates) the sender's row in the
`users` table under an exclusive `FOR UPDATE` lock, increments the sender's
`last_msg_num` counter, inserts a `messages` row carrying the new counter
value as `user_msg_num`, and then reads back the ten most recent messages
whose `message_id` is at most the just-inserted message's id, newest first.

The `FOR UPDATE` lock serializes transactions that touch the same sender row,
and every transaction is atomic (commit or full rollback), so the observable
behaviour of the system is that of a sequence of atomic transaction steps.
We embed the database state (the two tables together with their autoincrement
counters) as a Lean structure, the transaction body as a function
`post_message` that can fail on the unique constraints the schema declares,
and concurrent executions as traces of atomic steps (`runTrace`).
-/

/-- A row of the `users` table: surrogate `id` (PK, autoincrement), unique
`username`, and the running per-sender counter `last_msg_num`. -/
structure UserRec where
  id : Nat
  username : String
  last_msg_num : Nat
deriving Repr, DecidableEq

/-- A row of the `messages` table: `message_id` (PK, autoincrement),
`sender_name`, `text`, `created_at` (server-assigned timestamp, modelled as a
number), and the per-sender sequence number `user_msg_num`. -/
structure MessageRec where
  message_id : Nat
  sender_name : String
  text : String
  created_at : Nat
  user_msg_num : Nat
deriving Repr, DecidableEq

/-- The durable store: both tables plus the next value of each autoincrement
identity column. Rows are listed in insertion order. -/
structure DBState where
  users : List UserRec
  messages : List MessageRec
  next_user_id : Nat
  next_message_id : Nat
deriving Repr, DecidableEq

/-- The empty database, as created by the schema: both identity sequences
start at 1. -/
def initialState : DBState := ⟨[], [], 1, 1⟩

/-- The body of a parsed request, mirroring the pydantic `MessageRequest`
model: both fields are strings. -/
structure MessageRequest where
  sender_name : String
  text : String
deriving Repr, DecidableEq

/-- Database-level failures that the schema can raise inside the
transaction: a violation of a named unique constraint. -/
inductive DBError where
  | uniqueViolation : String → DBError
deriving Repr, DecidableEq

/-- The `SELECT ... WHERE username = name FOR UPDATE` read: the first (and,
by the unique constraint, only) user row with the given name. -/
def findUserForUpdate (users : List UserRec) (name : String) : Option UserRec :=
  users.find? (fun u => u.username == name)

/-- `user.last_msg_num += 1` flushed through the ORM: the row with the given
primary key gets its counter set to `n`; other rows are unchanged. -/
def updateUser (users : List UserRec) (uid : Nat) (n : Nat) : List UserRec :=
  users.map (fun u => if u.id == uid then { u with last_msg_num := n } else u)

/-- The unique constraint on `users.username`. -/
def usernameTaken (users : List UserRec) (name : String) : Bool :=
  users.any (fun u => u.username == name)

/-- The unique constraint `uq_sender_msgnum` on
`(sender_name, user_msg_num)`. -/
def msgKeyTaken (msgs : List MessageRec) (name : String) (n : Nat) : Bool :=
  msgs.any (fun m => m.sender_name == name && m.user_msg_num == n)

/-- Insertion (into the front of a descending list) used by `sortDesc`. -/
def insertDesc (m : MessageRec) : List MessageRec → List MessageRec
  | [] => [m]
  | x :: xs =>
      if x.message_id ≤ m.message_id then m :: x :: xs
      else x :: insertDesc m xs

/-- `ORDER BY message_id DESC`: sort a list of message rows by `message_id`,
largest first. -/
def sortDesc : List MessageRec → List MessageRec
  | [] => []
  | x :: xs => insertDesc x (sortDesc xs)

/-- The recent-window read: `SELECT * FROM messages WHERE message_id <= upto
ORDER BY message_id DESC LIMIT 10`. -/
def recentWindow (msgs : List MessageRec) (upto : Nat) : List MessageRec :=
  (sortDesc (msgs.filter (fun m => m.message_id ≤ upto))).take 10

/-- Everything a successful transaction produces: the committed state, the
returned window, and (as ghost data for the concurrency analysis) the
pre-increment counter value the transaction observed, the sequence number it
assigned, and the id of the message it inserted. -/
structure TxResult where
  state : DBState
  window : List MessageRec
  preCounter : Nat
  assignedSeq : Nat
  newMessageId : Nat
deriving Repr, DecidableEq

/-- The transaction body of the `post_message` handler, executed atomically
under the sender-row lock.

Step 1 reads the sender row `FOR UPDATE`; if absent, a row with
`last_msg_num = 0` is inserted and flushed (the flush checks the username
unique constraint and makes the generated id usable inside the still-open
transaction). Step 2 increments the counter. Step 3 inserts the message and
flushes (the flush checks `uq_sender_msgnum` and yields the generated
`message_id`). Step 4 reads the recent window bounded by the new id. Any
constraint failure aborts the transaction with an error. -/
def post_message (msg : MessageRequest) (now : Nat) (s : DBState) :
    Except DBError TxResult :=
  let found := findUserForUpdate s.users msg.sender_name
  let setup : Except DBError (UserRec × DBState) :=
    match found with
    | some u => .ok (u, s)
    | none =>
        if usernameTaken s.users msg.sender_name then
          .error (.uniqueViolation "users_username_key")
        else
          .ok (⟨s.next_user_id, msg.sender_name, 0⟩,
               { s with users := s.users ++ [⟨s.next_user_id, msg.sender_name, 0⟩],
                        next_user_id := s.next_user_id + 1 })
  match setup with
  | .error e => .error e
  | .ok (u, s1) =>
      let pre := u.last_msg_num
      let counter := pre + 1
      let s2 : DBState := { s1 with users := updateUser s1.users u.id counter }
      if msgKeyTaken s2.messages msg.sender_name counter then
        .error (.uniqueViolation "uq_sender_msgnum")
      else
        let newMsg : MessageRec :=
          ⟨s2.next_message_id, msg.sender_name, msg.text, now, counter⟩
        let s3 : DBState :=
          { s2 with messages := s2.messages ++ [newMsg],
                    next_message_id := s2.next_message_id + 1 }
        let window := recentWindow s3.messages newMsg.message_id
        .ok ⟨s3, window, pre, counter, newMsg.message_id⟩

/-- The handler seen from outside the transaction: on success the new state
is committed and the window returned; on any database error the whole
transaction is rolled back (the state reverts to `s`) and the error is
reported. -/
def handleRequest (msg : MessageRequest) (now : Nat) (s : DBState) :
    DBState × Except DBError (List MessageRec) :=
  match post_message msg now s with
  | .ok r => (r.state, .ok r.window)
  | .error e => (s, .error e)

/-- The committed state after one request. -/
def stepState (msg : MessageRequest) (now : Nat) (s : DBState) : DBState :=
  (handleRequest msg now s).1

/-- A trace of requests (each paired with its server timestamp) executed as
consecutive atomic transactions — the serialization that the per-sender
exclusive lock and transaction atomicity impose on any concurrent run. -/
def runTrace : List (MessageRequest × Nat) → DBState → DBState
  | [], s => s
  | p :: rest, s => runTrace rest (stepState p.1 p.2 s)

/-- One ghost observation per accepted call: which sender it was for, the
pre-increment counter value the call observed, and the post-increment value
it wrote and assigned to its message. -/
structure Obs where
  sender : String
  pre : Nat
  post : Nat
deriving Repr, DecidableEq

/-- The ghost observations of a trace, in serialization order. -/
def runObs : List (MessageRequest × Nat) → DBState → List Obs
  | [], _ => []
  | p :: rest, s =>
      match post_message p.1 p.2 s with
      | .ok r => ⟨p.1.sender_name, r.preCounter, r.assignedSeq⟩ :: runObs rest r.state
      | .error _ => runObs rest s

/-- The sender's stored counter, as read by a fresh lookup: 0 when the
sender has no row yet. -/
def lastSeqOf (s : DBState) (name : String) : Nat :=
  match findUserForUpdate s.users name with
  | some u => u.last_msg_num
  | none => 0

/-- Number of requests for a given sender in a trace. -/
def countReq (tr : List (MessageRequest × Nat)) (name : String) : Nat :=
  (tr.filter (fun p => p.1.sender_name == name)).length

/-- A raw field of the incoming JSON body: either a string value or a value
of some non-string shape. -/
inductive FieldVal where
  | str : String → FieldVal
  | nonString : FieldVal
deriving Repr, DecidableEq

/-- The raw request body before validation: each field may be missing. -/
structure RawRequest where
  sender_name : Option FieldVal
  text : Option FieldVal
deriving Repr, DecidableEq

/-- Pydantic validation of `MessageRequest`: both fields must be present
strings; nothing else is checked (in particular, no minimum length). -/
def parseMessageRequest (r : RawRequest) : Except String MessageRequest :=
  match r.sender_name, r.text with
  | some (.str s), some (.str t) => .ok ⟨s, t⟩
  | _, _ => .error "validation error"

/-- The full endpoint: validation happens before the transaction; a request
that fails validation is rejected with a client error and no transaction is
opened (the state is untouched). -/
def serveRaw (r : RawRequest) (now : Nat) (s : DBState) :
    DBState × Except String (List MessageRec) :=
  match parseMessageRequest r with
  | .error e => (s, .error e)
  | .ok msg =>
      match post_message msg now s with
      | .error _ => (s, .error "integrity error")
      | .ok res => (res.state, .ok res.window)

/-! ### The store invariant preserved by every transaction -/

/-- Invariant of every reachable database state.

`usersNodup`: usernames are unique (the `users.username` unique constraint).
`userIdsNodup` and `userIdsLt`: primary keys of user rows are distinct and
below the autoincrement counter. `msgIdsSorted` and `msgIdsLt`: message ids
strictly increase in insertion order and stay below the autoincrement
counter. `seqRange`: for every sender row, the `user_msg_num` values of that
sender's messages, in insertion order, are exactly `1, 2, ..., last_msg_num`.
`senderHasUser`: every message's sender has a user row. -/
structure StoreInv (s : DBState) : Prop where
  usersNodup : (s.users.map (fun u => u.username)).Nodup
  userIdsNodup : (s.users.map (fun u => u.id)).Nodup
  userIdsLt : ∀ u ∈ s.users, u.id < s.next_user_id
  msgIdsSorted : s.messages.Pairwise (fun a b => a.message_id < b.message_id)
  msgIdsLt : ∀ m ∈ s.messages, m.message_id < s.next_message_id
  seqRange : ∀ u ∈ s.users,
    ((s.messages.filter (fun m => m.sender_name == u.username)).map
      (fun m => m.user_msg_num)) = List.range' 1 u.last_msg_num
  senderHasUser : ∀ m ∈ s.messages,
    m.sender_name ∈ s.users.map (fun u => u.username)


/-! ### Facts about the `ORDER BY message_id DESC` sort -/

/-- Non-strict descending order on message rows, by `message_id`. -/
def geMsg (a b : MessageRec) : Prop := b.message_id ≤ a.message_id

/-- Strict descending order on message rows, by `message_id`. -/
def gtMsg (a b : MessageRec) : Prop := b.message_id < a.message_id

instance : IsAntisymm MessageRec gtMsg :=
  ⟨fun _ _ h1 h2 => absurd (lt_trans h1 h2) (lt_irrefl _)⟩

theorem insertDesc_perm (m : MessageRec) (l : List MessageRec) :
    (insertDesc m l).Perm (m :: l) := by
  induction l with
  | nil => simp [insertDesc]
  | cons x xs ih =>
      by_cases h : x.message_id ≤ m.message_id
      · simp [insertDesc, h]
      · simp only [insertDesc, if_neg h]
        exact (ih.cons x).trans (List.Perm.swap m x xs)

theorem sortDesc_perm (l : List MessageRec) : (sortDesc l).Perm l := by
  induction l with
  | nil => simp [sortDesc]
  | cons x xs ih =>
      exact (insertDesc_perm x (sortDesc xs)).trans (ih.cons x)

theorem pairwise_insertDesc (m : MessageRec) {l : List MessageRec}
    (h : l.Pairwise geMsg) : (insertDesc m l).Pairwise geMsg := by
  induction l with
  | nil => simp [insertDesc, List.Pairwise]
  | cons x xs ih =>
      rcases List.pairwise_cons.mp h with ⟨hx, hxs⟩
      by_cases hle : x.message_id ≤ m.message_id
      · simp only [insertDesc, if_pos hle]
        refine List.pairwise_cons.mpr ⟨?_, h⟩
        intro y hy
        rcases List.mem_cons.mp hy with rfl | hy
        · exact hle
        · exact le_trans (hx y hy) hle
      · simp only [insertDesc, if_neg hle]
        refine List.pairwise_cons.mpr ⟨?_, ih hxs⟩
        intro y hy
        have hy2 : y ∈ m :: xs := (insertDesc_perm m xs).mem_iff.mp hy
        rcases List.mem_cons.mp hy2 with rfl | hy2
        · exact le_of_lt (lt_of_not_le hle)
        · exact hx y hy2

theorem sortDesc_sorted (l : List MessageRec) : (sortDesc l).Pairwise geMsg := by
  induction l with
  | nil => simp [sortDesc]
  | cons x xs ih => exact pairwise_insertDesc x ih

/-- With pairwise-distinct ids, a non-strictly descending list is strictly
descending. -/
theorem pairwise_gt_of_ge_nodup {l : List MessageRec}
    (hge : l.Pairwise geMsg)
    (hnd : (l.map (fun m => m.message_id)).Nodup) : l.Pairwise gtMsg := by
  have hne : l.Pairwise (fun a b => a.message_id ≠ b.message_id) :=
    List.pairwise_map.mp hnd
  exact (hge.and hne).imp (fun h => lt_of_le_of_ne h.1 (Ne.symm h.2))

/-- Two strictly descending lists that are permutations of each other are
equal. -/
theorem sortedDesc_eq_of_perm {l₁ l₂ : List MessageRec} (hp : l₁.Perm l₂)
    (h1 : l₁.Pairwise gtMsg) (h2 : l₂.Pairwise gtMsg) : l₁ = l₂ :=
  List.eq_of_perm_of_sorted hp h1 h2

/-! ### Basic facts about the recent-window read -/

theorem recentWindow_length_le (msgs : List MessageRec) (upto : Nat) :
    (recentWindow msgs upto).length ≤ 10 :=
  List.length_take_le 10 (sortDesc (msgs.filter (fun m => m.message_id ≤ upto)))

theorem recentWindow_sublist_sort (msgs : List MessageRec) (upto : Nat) :
    (recentWindow msgs upto).Sublist
      (sortDesc (msgs.filter (fun m => m.message_id ≤ upto))) :=
  List.take_sublist 10 _

theorem mem_of_mem_recentWindow {msgs : List MessageRec} {upto : Nat}
    {m : MessageRec} (h : m ∈ recentWindow msgs upto) :
    m ∈ msgs.filter (fun m => m.message_id ≤ upto) :=
  (sortDesc_perm _).mem_iff.mp ((recentWindow_sublist_sort msgs upto).mem h)

theorem recentWindow_id_le {msgs : List MessageRec} {upto : Nat}
    {m : MessageRec} (h : m ∈ recentWindow msgs upto) : m.message_id ≤ upto := by
  have := List.of_mem_filter (mem_of_mem_recentWindow h)
  exact by simpa using this

theorem recentWindow_sorted (msgs : List MessageRec) (upto : Nat) :
    (recentWindow msgs upto).Pairwise geMsg :=
  List.Pairwise.sublist (recentWindow_sublist_sort msgs upto) (sortDesc_sorted _)

/-- When at most 10 messages qualify, the window is exactly the set of
qualifying messages (as a permutation). -/
theorem recentWindow_all {msgs : List MessageRec} {upto : Nat}
    (h : (msgs.filter (fun m => m.message_id ≤ upto)).length ≤ 10) :
    (recentWindow msgs upto).Perm (msgs.filter (fun m => m.message_id ≤ upto)) := by
  have hlen : (sortDesc (msgs.filter (fun m => m.message_id ≤ upto))).length ≤ 10 :=
    le_of_eq_of_le (sortDesc_perm _).length_eq h
  unfold recentWindow
  rw [List.take_of_length_le hlen]
  exact sortDesc_perm _

theorem inv_initial : StoreInv initialState := by
  constructor <;> simp [initialState]

/-! ### Helper lemmas about the primitive store operations -/

theorem findUser_eq_some {users : List UserRec} {name : String} {u : UserRec}
    (h : findUserForUpdate users name = some u) : u ∈ users ∧ u.username = name := by
  refine ⟨List.mem_of_find?_eq_some h, ?_⟩
  have := List.find?_some h
  exact by simpa using this

theorem findUser_eq_none {users : List UserRec} {name : String}
    (h : findUserForUpdate users name = none) :
    ∀ u ∈ users, u.username ≠ name := by
  intro u hu
  have := List.find?_eq_none.mp h u hu
  exact by simpa using this

theorem usernameTaken_false {users : List UserRec} {name : String}
    (h : findUserForUpdate users name = none) :
    usernameTaken users name = false := by
  unfold usernameTaken
  rw [List.any_eq_false]
  intro u hu
  simpa using findUser_eq_none h u hu

theorem updateUser_map_username (users : List UserRec) (uid n : Nat) :
    (updateUser users uid n).map (fun u => u.username)
      = users.map (fun u => u.username) := by
  unfold updateUser
  rw [List.map_map]
  refine List.map_congr_left ?_
  intro u _
  by_cases h : u.id = uid <;> simp [h]

theorem updateUser_map_id (users : List UserRec) (uid n : Nat) :
    (updateUser users uid n).map (fun u => u.id) = users.map (fun u => u.id) := by
  unfold updateUser
  rw [List.map_map]
  refine List.map_congr_left ?_
  intro u _
  by_cases h : u.id = uid <;> simp [h]

theorem findUser_updateUser (users : List UserRec) (uid n : Nat) (name : String) :
    findUserForUpdate (updateUser users uid n) name
      = Option.map (fun u => if u.id == uid then { u with last_msg_num := n } else u)
          (findUserForUpdate users name) := by
  have hfun : ((fun u : UserRec => u.username == name) ∘
      (fun u => if u.id == uid then { u with last_msg_num := n } else u))
      = (fun u : UserRec => u.username == name) := by
    funext u
    by_cases h : u.id = uid <;> simp [Function.comp, h]
  unfold findUserForUpdate updateUser
  rw [List.find?_map]
  rw [hfun]

theorem findUser_append (us1 us2 : List UserRec) (name : String) :
    findUserForUpdate (us1 ++ us2) name
      = (findUserForUpdate us1 name).or (findUserForUpdate us2 name) :=
  List.find?_append

/-- Members of distinct primary key are distinct rows. -/
theorem user_eq_of_id_eq {s : DBState} (inv : StoreInv s) {u w : UserRec}
    (hu : u ∈ s.users) (hw : w ∈ s.users) (h : u.id = w.id) : u = w :=
  List.inj_on_of_nodup_map inv.userIdsNodup hu hw h

/-- Members of distinct username are distinct rows. -/
theorem user_eq_of_username_eq {s : DBState} (inv : StoreInv s) {u w : UserRec}
    (hu : u ∈ s.users) (hw : w ∈ s.users) (h : u.username = w.username) : u = w :=
  List.inj_on_of_nodup_map inv.usersNodup hu hw h

theorem lastSeqOf_eq_of_find {s : DBState} {name : String} {u : UserRec}
    (h : findUserForUpdate s.users name = some u) :
    lastSeqOf s name = u.last_msg_num := by
  simp [lastSeqOf, h]

theorem lastSeqOf_eq_zero_of_find_none {s : DBState} {name : String}
    (h : findUserForUpdate s.users name = none) : lastSeqOf s name = 0 := by
  simp [lastSeqOf, h]

/-- Under the invariant, the sequence number a transaction is about to assign
to an existing sender is fresh: the `uq_sender_msgnum` check cannot fire. -/
theorem msgKey_false_found {s : DBState} {name : String} {u : UserRec}
    (inv : StoreInv s) (hu : findUserForUpdate s.users name = some u) :
    msgKeyTaken s.messages name (u.last_msg_num + 1) = false := by
  rcases findUser_eq_some hu with ⟨hmem, hname⟩
  rw [msgKeyTaken, List.any_eq_false]
  intro m hm
  simp only [Bool.and_eq_true, beq_iff_eq]
  rintro ⟨hsend, hseq⟩
  have hf : m ∈ s.messages.filter (fun m => m.sender_name == u.username) := by
    refine List.mem_filter.mpr ⟨hm, ?_⟩
    simp [hsend, hname]
  have hmm : m.user_msg_num ∈
      ((s.messages.filter (fun m => m.sender_name == u.username)).map
        (fun m => m.user_msg_num)) :=
    List.mem_map_of_mem _ hf
  rw [inv.seqRange u hmem] at hmm
  have hrange := List.mem_range'_1.mp hmm
  omega

/-- Under the invariant, a brand-new sender has no stored messages, so
sequence number 1 is fresh for it. -/
theorem msgKey_false_new {s : DBState} {name : String}
    (inv : StoreInv s) (hu : findUserForUpdate s.users name = none) :
    msgKeyTaken s.messages name 1 = false := by
  rw [msgKeyTaken, List.any_eq_false]
  intro m hm
  simp only [Bool.and_eq_true, beq_iff_eq]
  rintro ⟨hsend, _⟩
  have hin := inv.senderHasUser m hm
  rw [hsend] at hin
  rcases List.mem_map.mp hin with ⟨w, hw, hwname⟩
  exact findUser_eq_none hu w hw hwname

/-- Under the invariant, a brand-new sender has no stored messages at all. -/
theorem filter_sender_eq_nil {s : DBState} {name : String}
    (inv : StoreInv s) (hu : findUserForUpdate s.users name = none) :
    s.messages.filter (fun m => m.sender_name == name) = [] := by
  rw [List.filter_eq_nil_iff]
  intro m hm
  simp only [beq_iff_eq]
  intro hsend
  have hin := inv.senderHasUser m hm
  rw [hsend] at hin
  rcases List.mem_map.mp hin with ⟨w, hw, hwname⟩
  exact findUser_eq_none hu w hw hwname

/-- Evaluation of the transaction when the sender row exists and the message
unique constraint does not fire. -/
theorem post_message_found {s : DBState} {msg : MessageRequest} (now : Nat)
    {u : UserRec} (hu : findUserForUpdate s.users msg.sender_name = some u)
    (hk : msgKeyTaken s.messages msg.sender_name (u.last_msg_num + 1) = false) :
    post_message msg now s = .ok
      ⟨⟨updateUser s.users u.id (u.last_msg_num + 1),
        s.messages ++
          [⟨s.next_message_id, msg.sender_name, msg.text, now, u.last_msg_num + 1⟩],
        s.next_user_id, s.next_message_id + 1⟩,
       recentWindow
         (s.messages ++
           [⟨s.next_message_id, msg.sender_name, msg.text, now, u.last_msg_num + 1⟩])
         s.next_message_id,
       u.last_msg_num, u.last_msg_num + 1, s.next_message_id⟩ := by
  simp [post_message, hu, hk]

/-- Evaluation of the transaction when the sender row does not exist: the
row is created with counter 0 (then incremented to 1) and neither unique
constraint fires. -/
theorem post_message_new {s : DBState} {msg : MessageRequest} (now : Nat)
    (hu : findUserForUpdate s.users msg.sender_name = none)
    (hk : msgKeyTaken s.messages msg.sender_name 1 = false) :
    post_message msg now s = .ok
      ⟨⟨updateUser (s.users ++ [⟨s.next_user_id, msg.sender_name, 0⟩])
          s.next_user_id 1,
        s.messages ++ [⟨s.next_message_id, msg.sender_name, msg.text, now, 1⟩],
        s.next_user_id + 1, s.next_message_id + 1⟩,
       recentWindow
         (s.messages ++ [⟨s.next_message_id, msg.sender_name, msg.text, now, 1⟩])
         s.next_message_id,
       0, 1, s.next_message_id⟩ := by
  have ht := usernameTaken_false hu
  simp [post_message, hu, ht, hk]

theorem updateUser_mem {users : List UserRec} {uid n : Nat} {v : UserRec}
    (hv : v ∈ updateUser users uid n) :
    ∃ w ∈ users, v = (if w.id == uid then { w with last_msg_num := n } else w) := by
  simp only [updateUser] at hv
  rcases List.mem_map.mp hv with ⟨w, hw, hval⟩
  exact ⟨w, hw, hval.symm⟩

theorem updateUser_elem_id (w : UserRec) (uid n : Nat) :
    (if w.id == uid then { w with last_msg_num := n } else w).id = w.id := by
  by_cases h : w.id = uid <;> simp [h]

theorem username_not_mem_of_find_none {users : List UserRec} {name : String}
    (hu : findUserForUpdate users name = none) :
    name ∉ users.map (fun u => u.username) := by
  intro hmm
  rcases List.mem_map.mp hmm with ⟨w, hw, hwname⟩
  exact findUser_eq_none hu w hw hwname

/-- The invariant is preserved when an existing sender accepts a message. -/
theorem inv_found {s : DBState} {name text : String} {now : Nat} {u : UserRec}
    (inv : StoreInv s) (hu : findUserForUpdate s.users name = some u) :
    StoreInv ⟨updateUser s.users u.id (u.last_msg_num + 1),
      s.messages ++ [⟨s.next_message_id, name, text, now, u.last_msg_num + 1⟩],
      s.next_user_id, s.next_message_id + 1⟩ := by
  rcases findUser_eq_some hu with ⟨hmem, hname⟩
  constructor
  case usersNodup =>
    dsimp only
    rw [updateUser_map_username]
    exact inv.usersNodup
  case userIdsNodup =>
    dsimp only
    rw [updateUser_map_id]
    exact inv.userIdsNodup
  case userIdsLt =>
    dsimp only
    intro v hv
    rcases updateUser_mem hv with ⟨w, hw, hval⟩
    rw [hval, updateUser_elem_id]
    exact inv.userIdsLt w hw
  case msgIdsSorted =>
    dsimp only
    refine List.pairwise_append.mpr ⟨inv.msgIdsSorted, by simp, ?_⟩
    intro a ha b hb
    rw [List.mem_singleton.mp hb]
    exact inv.msgIdsLt a ha
  case msgIdsLt =>
    dsimp only
    intro m hm
    rcases List.mem_append.mp hm with h | h
    · exact lt_trans (inv.msgIdsLt m h) (Nat.lt_succ_self _)
    · rw [List.mem_singleton.mp h]
      exact Nat.lt_succ_self _
  case seqRange =>
    dsimp only
    intro v hv
    rcases updateUser_mem hv with ⟨w, hw, hval⟩
    by_cases hid : w.id = u.id
    · have hwu : w = u := user_eq_of_id_eq inv hw hmem hid
      subst hwu
      simp only [beq_self_eq_true, if_true] at hval
      rw [hval]
      rw [List.filter_append, List.map_append]
      have hfil : ([⟨s.next_message_id, name, text, now, w.last_msg_num + 1⟩] :
          List MessageRec).filter
            (fun m => m.sender_name ==
              ({ w with last_msg_num := w.last_msg_num + 1 } : UserRec).username)
          = [⟨s.next_message_id, name, text, now, w.last_msg_num + 1⟩] := by
        simp [hname]
      rw [hfil]
      have hold : s.messages.filter
          (fun m => m.sender_name ==
            ({ w with last_msg_num := w.last_msg_num + 1 } : UserRec).username)
          = s.messages.filter (fun m => m.sender_name == w.username) := rfl
      rw [hold, inv.seqRange w hw, List.range'_concat]
      simp [Nat.add_comm]
    · have hvw : v = w := by
        rw [hval]
        simp [hid]
      subst hvw
      have hne : v.username ≠ name := by
        intro hcon
        exact hid (congrArg UserRec.id
          (user_eq_of_username_eq inv hw hmem (hcon.trans hname.symm)))
      rw [List.filter_append, List.map_append]
      have hfil : ([⟨s.next_message_id, name, text, now, u.last_msg_num + 1⟩] :
          List MessageRec).filter (fun m => m.sender_name == v.username) = [] := by
        simp
        intro hcon
        exact absurd hcon.symm hne
      rw [hfil, inv.seqRange v hw]
      simp
  case senderHasUser =>
    dsimp only
    intro m hm
    rw [updateUser_map_username]
    rcases List.mem_append.mp hm with h | h
    · exact inv.senderHasUser m h
    · rw [List.mem_singleton.mp h]
      rw [← hname]
      exact List.mem_map_of_mem _ hmem

/-- The invariant is preserved when a brand-new sender accepts its first
message. -/
theorem inv_new {s : DBState} {name text : String} {now : Nat}
    (inv : StoreInv s) (hu : findUserForUpdate s.users name = none) :
    StoreInv ⟨updateUser (s.users ++ [⟨s.next_user_id, name, 0⟩])
        s.next_user_id 1,
      s.messages ++ [⟨s.next_message_id, name, text, now, 1⟩],
      s.next_user_id + 1, s.next_message_id + 1⟩ := by
  constructor
  case usersNodup =>
    dsimp only
    rw [updateUser_map_username, List.map_append]
    simp only [List.map_cons, List.map_nil]
    rw [List.nodup_append]
    refine ⟨inv.usersNodup, by simp, ?_⟩
    rw [List.disjoint_singleton]
    exact username_not_mem_of_find_none hu
  case userIdsNodup =>
    dsimp only
    rw [updateUser_map_id, List.map_append]
    simp only [List.map_cons, List.map_nil]
    rw [List.nodup_append]
    refine ⟨inv.userIdsNodup, by simp, ?_⟩
    rw [List.disjoint_singleton]
    intro hmm
    rcases List.mem_map.mp hmm with ⟨w, hw, hwid⟩
    exact absurd (inv.userIdsLt w hw) (by rw [hwid]; exact lt_irrefl _)
  case userIdsLt =>
    dsimp only
    intro v hv
    rcases updateUser_mem hv with ⟨w, hw, hval⟩
    rw [hval, updateUser_elem_id]
    rcases List.mem_append.mp hw with h | h
    · exact lt_trans (inv.userIdsLt w h) (Nat.lt_succ_self _)
    · rw [List.mem_singleton.mp h]
      exact Nat.lt_succ_self _
  case msgIdsSorted =>
    dsimp only
    refine List.pairwise_append.mpr ⟨inv.msgIdsSorted, by simp, ?_⟩
    intro a ha b hb
    rw [List.mem_singleton.mp hb]
    exact inv.msgIdsLt a ha
  case msgIdsLt =>
    dsimp only
    intro m hm
    rcases List.mem_append.mp hm with h | h
    · exact lt_trans (inv.msgIdsLt m h) (Nat.lt_succ_self _)
    · rw [List.mem_singleton.mp h]
      exact Nat.lt_succ_self _
  case seqRange =>
    dsimp only
    intro v hv
    rcases updateUser_mem hv with ⟨w, hw, hval⟩
    rcases List.mem_append.mp hw with h | h
    · have hidne : w.id ≠ s.next_user_id := Nat.ne_of_lt (inv.userIdsLt w h)
      have hvw : v = w := by
        rw [hval]
        simp [hidne]
      subst hvw
      have hne : v.username ≠ name := findUser_eq_none hu v h
      rw [List.filter_append, List.map_append]
      have hfil : ([⟨s.next_message_id, name, text, now, 1⟩] :
          List MessageRec).filter (fun m => m.sender_name == v.username) = [] := by
        simp
        intro hcon
        exact absurd hcon.symm hne
      rw [hfil, inv.seqRange v h]
      simp
    · rw [List.mem_singleton.mp h] at hval
      have hvval : v = (⟨s.next_user_id, name, 1⟩ : UserRec) := by
        rw [hval]
        simp
      subst hvval
      rw [List.filter_append, List.map_append]
      have hold : s.messages.filter
          (fun m => m.sender_name == (⟨s.next_user_id, name, 1⟩ : UserRec).username)
          = [] := filter_sender_eq_nil inv hu
      rw [hold]
      simp [List.range'_one]
  case senderHasUser =>
    dsimp only
    intro m hm
    rw [updateUser_map_username, List.map_append]
    rcases List.mem_append.mp hm with h | h
    · exact List.mem_append_left _ (inv.senderHasUser m h)
    · rw [List.mem_singleton.mp h]
      refine List.mem_append_right _ ?_
      simp

theorem find_after_update_found {s : DBState} {name : String} {u : UserRec}
    (inv : StoreInv s) (hu : findUserForUpdate s.users name = some u) (S : String) :
    findUserForUpdate (updateUser s.users u.id (u.last_msg_num + 1)) S
      = if S = name then some { u with last_msg_num := u.last_msg_num + 1 }
        else findUserForUpdate s.users S := by
  rcases findUser_eq_some hu with ⟨hmem, hname⟩
  rw [findUser_updateUser]
  by_cases hS : S = name
  · subst hS
    rw [hu]
    simp
  · rw [if_neg hS]
    cases hw : findUserForUpdate s.users S with
    | none => simp
    | some w =>
        rcases findUser_eq_some hw with ⟨hwmem, hwname⟩
        have hne : w.id ≠ u.id := by
          intro hcon
          have hwu : w = u := user_eq_of_id_eq inv hwmem hmem hcon
          rw [hwu] at hwname
          exact hS (hwname.symm.trans hname)
        simp [hne]

theorem find_after_update_new {s : DBState} {name : String}
    (inv : StoreInv s) (hu : findUserForUpdate s.users name = none) (S : String) :
    findUserForUpdate
        (updateUser (s.users ++ [⟨s.next_user_id, name, 0⟩]) s.next_user_id 1) S
      = if S = name then some ⟨s.next_user_id, name, 1⟩
        else findUserForUpdate s.users S := by
  rw [findUser_updateUser, findUser_append]
  by_cases hS : S = name
  · subst hS
    rw [hu]
    simp [findUserForUpdate, List.find?_singleton]
  · rw [if_neg hS]
    have h1 : findUserForUpdate [(⟨s.next_user_id, name, 0⟩ : UserRec)] S = none := by
      rw [findUserForUpdate, List.find?_singleton]
      simp
      exact fun hcon => absurd hcon.symm hS
    rw [h1]
    cases hw : findUserForUpdate s.users S with
    | none => simp
    | some w =>
        have hne : w.id ≠ s.next_user_id :=
          Nat.ne_of_lt (inv.userIdsLt w (findUser_eq_some hw).1)
        simp [hne]

theorem lastSeqOf_after_found {s : DBState} {name : String} {u : UserRec}
    (inv : StoreInv s) (hu : findUserForUpdate s.users name = some u)
    (M : List MessageRec) (a b : Nat) (S : String) :
    lastSeqOf ⟨updateUser s.users u.id (u.last_msg_num + 1), M, a, b⟩ S
      = if S = name then lastSeqOf s S + 1 else lastSeqOf s S := by
  unfold lastSeqOf
  dsimp only
  rw [find_after_update_found inv hu S]
  by_cases hS : S = name
  · subst hS
    rw [if_pos rfl, if_pos rfl, hu]
  · rw [if_neg hS, if_neg hS]

theorem lastSeqOf_after_new {s : DBState} {name : String}
    (inv : StoreInv s) (hu : findUserForUpdate s.users name = none)
    (M : List MessageRec) (a b : Nat) (S : String) :
    lastSeqOf ⟨updateUser (s.users ++ [⟨s.next_user_id, name, 0⟩])
        s.next_user_id 1, M, a, b⟩ S
      = if S = name then lastSeqOf s S + 1 else lastSeqOf s S := by
  unfold lastSeqOf
  dsimp only
  rw [find_after_update_new inv hu S]
  by_cases hS : S = name
  · subst hS
    rw [if_pos rfl, if_pos rfl, hu]
  · rw [if_neg hS, if_neg hS]

/-- The master step lemma: from any state satisfying the invariant, every
transaction succeeds, observes the sender's stored counter as its
pre-increment value, assigns exactly the successor as the message's sequence
number, appends exactly one message carrying the fresh autoincrement id,
bumps only that sender's counter, computes the window from the post-insert
table bounded by the new id, and re-establishes the invariant. -/
theorem step_spec {s : DBState} (inv : StoreInv s)
    (msg : MessageRequest) (now : Nat) :
    ∃ r : TxResult, post_message msg now s = Except.ok r ∧
      r.preCounter = lastSeqOf s msg.sender_name ∧
      r.assignedSeq = lastSeqOf s msg.sender_name + 1 ∧
      r.newMessageId = s.next_message_id ∧
      r.state.messages = s.messages ++
        [⟨s.next_message_id, msg.sender_name, msg.text, now,
          lastSeqOf s msg.sender_name + 1⟩] ∧
      r.state.next_message_id = s.next_message_id + 1 ∧
      r.window = recentWindow r.state.messages s.next_message_id ∧
      (∀ S : String, lastSeqOf r.state S =
        if S = msg.sender_name then lastSeqOf s S + 1 else lastSeqOf s S) ∧
      StoreInv r.state := by
  cases hu : findUserForUpdate s.users msg.sender_name with
  | some u =>
      have hk := msgKey_false_found inv hu
      have hlast := lastSeqOf_eq_of_find hu
      refine ⟨_, post_message_found now hu hk, ?_, ?_, rfl, ?_, rfl, rfl,
        ?_, ?_⟩
      · exact hlast.symm
      · rw [hlast]
      · rw [hlast]
      · intro S
        exact lastSeqOf_after_found inv hu _ _ _ S
      · exact inv_found inv hu
  | none =>
      have hk := msgKey_false_new inv hu
      have hlast := lastSeqOf_eq_zero_of_find_none hu
      refine ⟨_, post_message_new now hu hk, ?_, ?_, rfl, ?_, rfl, rfl,
        ?_, ?_⟩
      · exact hlast.symm
      · rw [hlast]
      · rw [hlast]
      · intro S
        exact lastSeqOf_after_new inv hu _ _ _ S
      · exact inv_new inv hu

theorem stepState_eq_of_ok {msg : MessageRequest} {now : Nat} {s : DBState}
    {r : TxResult} (h : post_message msg now s = Except.ok r) :
    stepState msg now s = r.state := by
  simp [stepState, handleRequest, h]

theorem inv_stepState {msg : MessageRequest} {now : Nat} {s : DBState}
    (inv : StoreInv s) : StoreInv (stepState msg now s) := by
  obtain ⟨r, heq, -, -, -, -, -, -, -, hinv⟩ := step_spec inv msg now
  rw [stepState_eq_of_ok heq]
  exact hinv

theorem inv_runTrace (tr : List (MessageRequest × Nat)) :
    ∀ {s : DBState}, StoreInv s → StoreInv (runTrace tr s) := by
  induction tr with
  | nil => intro s inv; exact inv
  | cons p rest ih => intro s inv; exact ih (inv_stepState inv)

theorem countReq_cons (p : MessageRequest × Nat)
    (rest : List (MessageRequest × Nat)) (S : String) :
    countReq (p :: rest) S
      = if p.1.sender_name = S then countReq rest S + 1 else countReq rest S := by
  by_cases h : p.1.sender_name = S <;> simp [countReq, List.filter_cons, h]

theorem msg_eq_of_id_eq {s : DBState} (inv : StoreInv s) {a b : MessageRec}
    (ha : a ∈ s.messages) (hb : b ∈ s.messages)
    (h : a.message_id = b.message_id) : a = b := by
  have hp : List.Pairwise (fun a b : MessageRec => a.message_id ≠ b.message_id)
      s.messages := inv.msgIdsSorted.imp (fun h => Nat.ne_of_lt h)
  have hnd : (s.messages.map (fun m => m.message_id)).Nodup :=
    List.pairwise_map.mpr hp
  exact List.inj_on_of_nodup_map hnd ha hb h

theorem msgIds_nodup {s : DBState} (inv : StoreInv s) :
    (s.messages.map (fun m => m.message_id)).Nodup :=
  List.pairwise_map.mpr (inv.msgIdsSorted.imp (fun h => Nat.ne_of_lt h))

/-- Running a trace from any invariant state extends each sender's stored
sequence numbers by the next `countReq` consecutive integers, and advances
that sender's counter by exactly its number of requests. -/
theorem runTrace_seq_spec (tr : List (MessageRequest × Nat)) :
    ∀ {s : DBState}, StoreInv s → ∀ S : String,
    (((runTrace tr s).messages.filter (fun m => m.sender_name == S)).map
        (fun m => m.user_msg_num)
      = ((s.messages.filter (fun m => m.sender_name == S)).map
          (fun m => m.user_msg_num)) ++
        List.range' (lastSeqOf s S + 1) (countReq tr S)) ∧
    lastSeqOf (runTrace tr s) S = lastSeqOf s S + countReq tr S := by
  induction tr with
  | nil =>
      intro s inv S
      constructor
      · simp [runTrace, countReq]
      · simp [runTrace, countReq]
  | cons p rest ih =>
      intro s inv S
      obtain ⟨r, heq, hpre, hseqq, hnid, hmsgs, hnmid, hwin, hlast, hinv⟩ :=
        step_spec inv p.1 p.2
      have hstep : runTrace (p :: rest) s = runTrace rest r.state := by
        rw [runTrace, stepState_eq_of_ok heq]
      rcases ih hinv S with ⟨ih1, ih2⟩
      rw [hstep]
      rw [countReq_cons]
      constructor
      · rw [ih1, hmsgs, List.filter_append, List.map_append, hlast S]
        by_cases hS : p.1.sender_name = S
        · rw [if_pos hS, if_pos hS.symm]
          have hfil : (([⟨s.next_message_id, p.1.sender_name, p.1.text, p.2,
              lastSeqOf s p.1.sender_name + 1⟩] : List MessageRec).filter
                (fun m => m.sender_name == S)).map (fun m => m.user_msg_num)
              = [lastSeqOf s S + 1] := by
            simp [hS]
          rw [hfil, List.append_assoc, List.range'_succ]
          rfl
        · rw [if_neg hS, if_neg (fun hcon => hS hcon.symm)]
          have hfil : (([⟨s.next_message_id, p.1.sender_name, p.1.text, p.2,
              lastSeqOf s p.1.sender_name + 1⟩] : List MessageRec).filter
                (fun m => m.sender_name == S)).map (fun m => m.user_msg_num)
              = [] := by
            simp [hS]
          rw [hfil, List.append_nil]
      · rw [ih2, hlast S]
        by_cases hS : p.1.sender_name = S
        · rw [if_pos hS, if_pos hS.symm]
          omega
        · rw [if_neg hS, if_neg (fun hcon => hS hcon.symm)]

/-- Ghost observations: from any invariant state, the pre-increment counter
values observed by the calls of sender `S`, in serialization order, are the
consecutive integers starting at the sender's stored counter, and every call
writes back exactly its observed value plus one. -/
theorem runObs_spec (tr : List (MessageRequest × Nat)) :
    ∀ {s : DBState}, StoreInv s → ∀ S : String,
    (((runObs tr s).filter (fun o => o.sender == S)).map (fun o => o.pre)
      = List.range' (lastSeqOf s S) (countReq tr S)) ∧
    (∀ o ∈ runObs tr s, o.post = o.pre + 1) := by
  induction tr with
  | nil =>
      intro s inv S
      constructor
      · simp [runObs, countReq]
      · simp [runObs]
  | cons p rest ih =>
      intro s inv S
      obtain ⟨r, heq, hpre, hseqq, hnid, hmsgs, hnmid, hwin, hlast, hinv⟩ :=
        step_spec inv p.1 p.2
      have hobs : runObs (p :: rest) s
          = ⟨p.1.sender_name, r.preCounter, r.assignedSeq⟩ :: runObs rest r.state := by
        rw [runObs, heq]
      rcases ih hinv S with ⟨ih1, ih2⟩
      rw [hobs]
      constructor
      · rw [List.filter_cons]
        rw [countReq_cons]
        by_cases hS : p.1.sender_name = S
        · have hbeq : ((⟨p.1.sender_name, r.preCounter, r.assignedSeq⟩ : Obs).sender
              == S) = true := by simp [hS]
          rw [hbeq]
          simp only [if_true]
          rw [List.map_cons, ih1, hlast S, if_pos hS.symm, if_pos hS]
          rw [List.range'_succ]
          have : r.preCounter = lastSeqOf s S := by rw [hpre, hS]
          rw [this]
        · have hbeq : ((⟨p.1.sender_name, r.preCounter, r.assignedSeq⟩ : Obs).sender
              == S) = false := by simp [hS]
          rw [hbeq]
          simp only [Bool.false_eq_true, if_false]
          rw [ih1, hlast S, if_neg (fun hcon => hS hcon.symm), if_neg hS]
      · intro o ho
        rcases List.mem_cons.mp ho with rfl | ho
        · dsimp only
          rw [hseqq, hpre]
        · exact ih2 o ho

theorem find_update_self {users : List UserRec} {name : String} {u : UserRec}
    (hu : findUserForUpdate users name = some u) (n : Nat) :
    findUserForUpdate (updateUser users u.id n) name
      = some { u with last_msg_num := n } := by
  rw [findUser_updateUser, hu]
  simp

theorem find_update_newU {users : List UserRec} {name : String}
    (hu : findUserForUpdate users name = none) (nuid n : Nat) :
    findUserForUpdate (updateUser (users ++ [⟨nuid, name, 0⟩]) nuid n) name
      = some ⟨nuid, name, n⟩ := by
  rw [findUser_updateUser, findUser_append, hu]
  simp [findUserForUpdate, List.find?_singleton]

/-- Structure of any successful transaction, with no assumption on the
starting state: the new message id is the table's autoincrement value, the
assigned sequence number is the observed counter plus one, exactly one
message row is appended and it carries the request's sender and text and the
assigned sequence number, the window is the recent-window read of the
post-insert table bounded by the new id, and the sender's stored counter
ends up incremented by exactly one. -/
theorem post_message_ok_shape {msg : MessageRequest} {now : Nat} {s : DBState}
    {r : TxResult} (h : post_message msg now s = Except.ok r) :
    r.newMessageId = s.next_message_id ∧
    r.assignedSeq = r.preCounter + 1 ∧
    r.state.messages = s.messages ++
      [⟨s.next_message_id, msg.sender_name, msg.text, now, r.assignedSeq⟩] ∧
    r.state.next_message_id = s.next_message_id + 1 ∧
    r.window = recentWindow r.state.messages s.next_message_id ∧
    r.preCounter = lastSeqOf s msg.sender_name ∧
    lastSeqOf r.state msg.sender_name = lastSeqOf s msg.sender_name + 1 := by
  cases hu : findUserForUpdate s.users msg.sender_name with
  | some u =>
      by_cases hk : msgKeyTaken s.messages msg.sender_name (u.last_msg_num + 1) = true
      · exfalso
        simp [post_message, hu, hk] at h
      · have heq := post_message_found now hu (Bool.not_eq_true _ ▸ hk)
        rw [heq] at h
        obtain rfl : _ = r := Except.ok.inj h
        have hlast := lastSeqOf_eq_of_find hu
        refine ⟨rfl, rfl, ?_, rfl, rfl, hlast.symm, ?_⟩
        · rfl
        · have hfind2 := find_update_self hu (u.last_msg_num + 1)
          simp [lastSeqOf, hfind2, hu]
  | none =>
      have ht := usernameTaken_false hu
      by_cases hk : msgKeyTaken s.messages msg.sender_name 1 = true
      · exfalso
        simp [post_message, hu, ht, hk] at h
      · have heq := post_message_new now hu (Bool.not_eq_true _ ▸ hk)
        rw [heq] at h
        obtain rfl : _ = r := Except.ok.inj h
        have hlast := lastSeqOf_eq_zero_of_find_none hu
        refine ⟨rfl, rfl, ?_, rfl, rfl, hlast.symm, ?_⟩
        · rfl
        · have hfind2 := find_update_newU hu s.next_user_id 1
          simp [lastSeqOf, hfind2, hu]

/-! ### The claims -/

/-- C1: for every sender S, after any trace of accepted messages (arbitrarily
interleaved across senders), the stored `user_msg_num` values for S, in
insertion order, are exactly 1, 2, ..., N with no duplicates and no gaps,
where N is the number of messages accepted for S, and S's stored
`last_msg_num` counter equals N. -/
theorem senderSequence_gapless (tr : List (MessageRequest × Nat)) (S : String) :
    (((runTrace tr initialState).messages.filter
        (fun m => m.sender_name == S)).map (fun m => m.user_msg_num))
      = List.range' 1 (countReq tr S) ∧
    ((((runTrace tr initialState).messages.filter
        (fun m => m.sender_name == S)).map (fun m => m.user_msg_num))).Nodup ∧
    lastSeqOf (runTrace tr initialState) S = countReq tr S := by
  rcases runTrace_seq_spec tr inv_initial S with ⟨h1, h2⟩
  have hzero : lastSeqOf initialState S = 0 := by
    simp [lastSeqOf, initialState, findUserForUpdate]
  rw [hzero] at h1 h2
  have hmain : (((runTrace tr initialState).messages.filter
      (fun m => m.sender_name == S)).map (fun m => m.user_msg_num))
      = List.range' 1 (countReq tr S) := by
    rw [h1]
    simp [initialState]
  refine ⟨hmain, ?_, by simpa using h2⟩
  rw [hmain]
  exact List.nodup_range' _ _

/-- C3: the exclusive sender-row lock serializes same-sender transactions.
In the serialization it induces, the pre-increment counter values observed
by the calls of any sender S are the consecutive integers 0, 1, ..., N-1 in
order — so two calls of S never observe the same pre-increment value, and of
two consecutive ones the first observes some k and writes k+1 while the
second observes k+1 and writes k+2; every call writes back exactly its
observed value plus one; calls for other senders leave S's observations
untouched (they only pad the trace). -/
theorem lock_serialization (tr : List (MessageRequest × Nat)) (S : String) :
    (((runObs tr initialState).filter (fun o => o.sender == S)).map
        (fun o => o.pre)) = List.range' 0 (countReq tr S) ∧
    (∀ o ∈ runObs tr initialState, o.post = o.pre + 1) ∧
    List.Pairwise (fun a b => a.pre ≠ b.pre)
      ((runObs tr initialState).filter (fun o => o.sender == S)) := by
  rcases runObs_spec tr inv_initial S with ⟨h1, h2⟩
  have hzero : lastSeqOf initialState S = 0 := by
    simp [lastSeqOf, initialState, findUserForUpdate]
  rw [hzero] at h1
  refine ⟨h1, h2, ?_⟩
  have hnd : (((runObs tr initialState).filter (fun o => o.sender == S)).map
      (fun o => o.pre)).Nodup := by
    rw [h1]
    exact List.nodup_range' _ _
  exact List.pairwise_map.mp hnd

/-- Updating a freshly appended user row touches nothing else when every
pre-existing row has a different primary key. -/
theorem updateUser_append_fresh {users : List UserRec} {uid : Nat}
    (h : ∀ w ∈ users, w.id ≠ uid) (name : String) (n : Nat) :
    updateUser (users ++ [⟨uid, name, 0⟩]) uid n = users ++ [⟨uid, name, n⟩] := by
  unfold updateUser
  rw [List.map_append]
  have h1 : users.map
      (fun u => if u.id == uid then { u with last_msg_num := n } else u)
      = users := by
    calc users.map (fun u => if u.id == uid then { u with last_msg_num := n } else u)
        = users.map id := List.map_congr_left (fun w hw => by simp [h w hw])
      _ = users := List.map_id users
  rw [h1]
  simp

/-- C4: a call whose sender has no `users` row yet creates that row (with
counter 0, flushed inside the same transaction, then incremented), assigns
sequence number 1 to the sender's first message, and leaves exactly one
`users` row for that name, with its counter at 1. -/
theorem first_message_new_sender (tr : List (MessageRequest × Nat))
    (msg : MessageRequest) (now : Nat)
    (hnone : findUserForUpdate (runTrace tr initialState).users msg.sender_name
      = none) :
    ∃ r : TxResult,
      post_message msg now (runTrace tr initialState) = Except.ok r ∧
      r.preCounter = 0 ∧ r.assignedSeq = 1 ∧
      ((r.state.users.filter (fun u => u.username == msg.sender_name)).map
        (fun u => u.last_msg_num)) = [1] ∧
      ((r.state.messages.filter (fun m => m.sender_name == msg.sender_name)).map
        (fun m => m.user_msg_num)) = [1] := by
  have inv := inv_runTrace tr inv_initial
  have hk := msgKey_false_new inv hnone
  refine ⟨_, post_message_new now hnone hk, rfl, rfl, ?_, ?_⟩
  · dsimp only
    have hfresh : ∀ w ∈ (runTrace tr initialState).users,
        w.id ≠ (runTrace tr initialState).next_user_id :=
      fun w hw => Nat.ne_of_lt (inv.userIdsLt w hw)
    rw [updateUser_append_fresh hfresh msg.sender_name 1, List.filter_append]
    have h0 : (runTrace tr initialState).users.filter
        (fun u => u.username == msg.sender_name) = [] := by
      rw [List.filter_eq_nil_iff]
      intro w hw
      simp
      exact findUser_eq_none hnone w hw
    rw [h0]
    simp
  · dsimp only
    rw [List.filter_append, filter_sender_eq_nil inv hnone]
    simp

/-- C2: the recent-window read runs inside the same transaction as the
insert; it returns at most 10 messages, every returned message has id at
most the just-inserted message's id, the list is ordered by id descending
(newest first), and when at most 10 messages qualify it returns all of them
with no padding. -/
theorem recent_window_spec (msg : MessageRequest) (now : Nat) (s : DBState)
    (r : TxResult) (h : post_message msg now s = Except.ok r) :
    r.window.length ≤ 10 ∧
    (∀ m ∈ r.window, m.message_id ≤ r.newMessageId) ∧
    r.window.Pairwise geMsg ∧
    ((r.state.messages.filter
        (fun m => m.message_id ≤ r.newMessageId)).length ≤ 10 →
      r.window.Perm (r.state.messages.filter
        (fun m => m.message_id ≤ r.newMessageId))) := by
  obtain ⟨hnid, -, -, -, hwin, -, -⟩ := post_message_ok_shape h
  rw [hwin, hnid]
  refine ⟨recentWindow_length_le _ _, ?_, recentWindow_sorted _ _, ?_⟩
  · intro m hm
    exact recentWindow_id_le hm
  · intro hlen
    exact recentWindow_all hlen

/-- C5: the pair (sender_name, user_msg_num) is unique across all stored
messages on every reachable state, and the backstop is a hard constraint: a
transaction whose insert would duplicate the pair fails with the
`uq_sender_msgnum` integrity error, which the handler surfaces unchanged
(no retry, no bumped value) while committing nothing. -/
theorem unique_sender_seq_constraint (tr : List (MessageRequest × Nat)) :
    (∀ a ∈ (runTrace tr initialState).messages,
      ∀ b ∈ (runTrace tr initialState).messages,
      a.sender_name = b.sender_name → a.user_msg_num = b.user_msg_num → a = b) ∧
    (∀ (msg : MessageRequest) (now : Nat) (s : DBState) (u : UserRec),
      findUserForUpdate s.users msg.sender_name = some u →
      msgKeyTaken s.messages msg.sender_name (u.last_msg_num + 1) = true →
      post_message msg now s
        = Except.error (DBError.uniqueViolation "uq_sender_msgnum") ∧
      handleRequest msg now s
        = (s, Except.error (DBError.uniqueViolation "uq_sender_msgnum"))) := by
  constructor
  · have inv := inv_runTrace tr inv_initial
    intro a ha b hb hsend hseq
    have hain := inv.senderHasUser a ha
    rcases List.mem_map.mp hain with ⟨u, hu, huname⟩
    have haf : a ∈ (runTrace tr initialState).messages.filter
        (fun m => m.sender_name == u.username) :=
      List.mem_filter.mpr ⟨ha, by simp [huname]⟩
    have hbf : b ∈ (runTrace tr initialState).messages.filter
        (fun m => m.sender_name == u.username) :=
      List.mem_filter.mpr ⟨hb, by simp [huname, ← hsend]⟩
    have hnd : (((runTrace tr initialState).messages.filter
        (fun m => m.sender_name == u.username)).map
          (fun m => m.user_msg_num)).Nodup := by
      rw [inv.seqRange u hu]
      exact List.nodup_range' _ _
    exact List.inj_on_of_nodup_map hnd haf hbf hseq
  · intro msg now s u hu hk
    constructor
    · simp [post_message, hu, hk]
    · simp [handleRequest, post_message, hu, hk]

/-- C6: each call is all-or-nothing. When the transaction fails, the handler
reports the error with the state rolled back exactly to what it was — no
counter increment and no insert survive. When it succeeds, both effects are
present together: exactly one message row is appended, carrying the assigned
sequence number, and the sender's counter is incremented by exactly one. -/
theorem tx_atomic_rollback (msg : MessageRequest) (now : Nat) (s : DBState) :
    (∀ e, post_message msg now s = Except.error e →
      handleRequest msg now s = (s, Except.error e)) ∧
    (∀ r, post_message msg now s = Except.ok r →
      handleRequest msg now s = (r.state, Except.ok r.window) ∧
      r.state.messages = s.messages ++
        [⟨s.next_message_id, msg.sender_name, msg.text, now, r.assignedSeq⟩] ∧
      lastSeqOf r.state msg.sender_name = lastSeqOf s msg.sender_name + 1) := by
  constructor
  · intro e he
    simp [handleRequest, he]
  · intro r hr
    obtain ⟨-, -, hmsgs, -, -, -, hlast⟩ := post_message_ok_shape hr
    exact ⟨by simp [handleRequest, hr], hmsgs, hlast⟩

/-- C8: the recent-window read is a deterministic function of the store
state and the bound: on a frozen store (the same set of committed rows, in
whatever physical order) with distinct message ids, every execution of
`recentWindow` with the same bound returns the identical ordered list. -/
theorem recentWindow_deterministic (msgs1 msgs2 : List MessageRec) (upto : Nat)
    (hperm : msgs1.Perm msgs2)
    (hnd : (msgs1.map (fun m => m.message_id)).Nodup) :
    recentWindow msgs1 upto = recentWindow msgs2 upto := by
  unfold recentWindow
  have hpf : (msgs1.filter (fun m => m.message_id ≤ upto)).Perm
      (msgs2.filter (fun m => m.message_id ≤ upto)) := hperm.filter _
  have hnd1 : ((msgs1.filter (fun m => m.message_id ≤ upto)).map
      (fun m => m.message_id)).Nodup :=
    List.Nodup.sublist (List.Sublist.map _ (List.filter_sublist _)) hnd
  have hnds1 : ((sortDesc (msgs1.filter (fun m => m.message_id ≤ upto))).map
      (fun m => m.message_id)).Nodup :=
    (((sortDesc_perm _).map _).nodup_iff).mpr hnd1
  have hnds2 : ((sortDesc (msgs2.filter (fun m => m.message_id ≤ upto))).map
      (fun m => m.message_id)).Nodup := by
    refine (((sortDesc_perm _).map _).nodup_iff).mpr ?_
    exact ((hpf.map _).nodup_iff).mp hnd1
  have hs1 := pairwise_gt_of_ge_nodup (sortDesc_sorted
    (msgs1.filter (fun m => m.message_id ≤ upto))) hnds1
  have hs2 := pairwise_gt_of_ge_nodup (sortDesc_sorted
    (msgs2.filter (fun m => m.message_id ≤ upto))) hnds2
  have heq : sortDesc (msgs1.filter (fun m => m.message_id ≤ upto))
      = sortDesc (msgs2.filter (fun m => m.message_id ≤ upto)) :=
    sortedDesc_eq_of_perm
      ((sortDesc_perm _).trans (hpf.trans (sortDesc_perm _).symm)) hs1 hs2
  rw [heq]

/-- C10: in the window returned by any successful call from a reachable
state, the message ids are strictly decreasing (the descending order admits
no ties, ids being primary keys), so no message appears twice. -/
theorem window_strictly_descending (tr : List (MessageRequest × Nat))
    (msg : MessageRequest) (now : Nat) (r : TxResult)
    (h : post_message msg now (runTrace tr initialState) = Except.ok r) :
    r.window.Pairwise gtMsg ∧
    (r.window.map (fun m => m.message_id)).Nodup := by
  have inv := inv_runTrace tr inv_initial
  obtain ⟨r2, heq, -, -, -, -, -, -, -, hinv2⟩ := step_spec inv msg now
  rw [h] at heq
  obtain rfl : r = r2 := Except.ok.inj heq
  obtain ⟨hnid, -, -, -, hwin, -, -⟩ := post_message_ok_shape h
  have hndM : (r.state.messages.map (fun m => m.message_id)).Nodup :=
    msgIds_nodup hinv2
  have hndf : ((r.state.messages.filter (fun m =>
      m.message_id ≤ (runTrace tr initialState).next_message_id)).map
        (fun m => m.message_id)).Nodup :=
    List.Nodup.sublist (List.Sublist.map _ (List.filter_sublist _)) hndM
  have hnds : ((sortDesc (r.state.messages.filter (fun m =>
      m.message_id ≤ (runTrace tr initialState).next_message_id))).map
        (fun m => m.message_id)).Nodup :=
    (((sortDesc_perm _).map _).nodup_iff).mpr hndf
  have hstrict := pairwise_gt_of_ge_nodup (sortDesc_sorted
    (r.state.messages.filter (fun m =>
      m.message_id ≤ (runTrace tr initialState).next_message_id))) hnds
  rw [hwin]
  constructor
  · exact List.Pairwise.sublist (List.take_sublist _ _) hstrict
  · exact List.Nodup.sublist (List.Sublist.map _ (List.take_sublist _ _)) hnds

/-- C9: the first (newest) element of the returned window is the very
message this call inserted: it carries the new message id, the request's
sender and text verbatim, the call's timestamp, and the sequence number
assigned in this call. -/
theorem window_head_is_inserted (tr : List (MessageRequest × Nat))
    (msg : MessageRequest) (now : Nat) (r : TxResult)
    (h : post_message msg now (runTrace tr initialState) = Except.ok r) :
    r.window.head? = some ⟨r.newMessageId, msg.sender_name, msg.text, now,
      r.assignedSeq⟩ := by
  have inv := inv_runTrace tr inv_initial
  obtain ⟨r2, heq, -, -, -, -, -, -, -, hinv2⟩ := step_spec inv msg now
  rw [h] at heq
  obtain rfl : r = r2 := Except.ok.inj heq
  obtain ⟨hnid, -, hmsgs, -, hwin, -, -⟩ := post_message_ok_shape h
  have hfull : r.state.messages.filter (fun m =>
      m.message_id ≤ (runTrace tr initialState).next_message_id)
      = r.state.messages := by
    rw [List.filter_eq_self]
    intro m hm
    rw [hmsgs] at hm
    rcases List.mem_append.mp hm with hmem | hmem
    · simp
      exact le_of_lt (inv.msgIdsLt m hmem)
    · rw [List.mem_singleton.mp hmem]
      simp
  have hwin2 : r.window = (sortDesc r.state.messages).take 10 := by
    rw [hwin]
    unfold recentWindow
    rw [hfull]
  have hndM : (r.state.messages.map (fun m => m.message_id)).Nodup :=
    msgIds_nodup hinv2
  have hsorted := sortDesc_sorted r.state.messages
  have hNmem : (⟨(runTrace tr initialState).next_message_id, msg.sender_name,
      msg.text, now, r.assignedSeq⟩ : MessageRec) ∈ sortDesc r.state.messages := by
    rw [(sortDesc_perm r.state.messages).mem_iff, hmsgs]
    exact List.mem_append_right _ (List.mem_singleton.mpr rfl)
  cases hL : sortDesc r.state.messages with
  | nil =>
      rw [hL] at hNmem
      exact absurd hNmem (List.not_mem_nil _)
  | cons hd tl =>
      rw [hL] at hNmem hsorted
      have hhd_mem : hd ∈ r.state.messages := by
        have hmem : hd ∈ sortDesc r.state.messages := by
          rw [hL]
          exact List.mem_cons_self _ _
        exact (sortDesc_perm _).mem_iff.mp hmem
      have hhd_le : hd.message_id ≤ (runTrace tr initialState).next_message_id := by
        rw [hmsgs] at hhd_mem
        rcases List.mem_append.mp hhd_mem with hmem | hmem
        · exact le_of_lt (inv.msgIdsLt hd hmem)
        · rw [List.mem_singleton.mp hmem]
      have hid_eq : hd.message_id = (runTrace tr initialState).next_message_id := by
        rcases List.mem_cons.mp hNmem with hEq | hIn
        · rw [← hEq]
        · have hge := (List.pairwise_cons.mp hsorted).1 _ hIn
          exact le_antisymm hhd_le hge
      have hNmem2 : (⟨(runTrace tr initialState).next_message_id, msg.sender_name,
          msg.text, now, r.assignedSeq⟩ : MessageRec) ∈ r.state.messages := by
        rw [hmsgs]
        exact List.mem_append_right _ (List.mem_singleton.mpr rfl)
      have hhd_mem2 : hd ∈ r.state.messages := hhd_mem
      have hd_eq : hd = ⟨(runTrace tr initialState).next_message_id,
          msg.sender_name, msg.text, now, r.assignedSeq⟩ :=
        msg_eq_of_id_eq hinv2 hhd_mem2 hNmem2 hid_eq
      rw [hwin2, hL, hd_eq, hnid]
      rfl

/-- C7 (amended): the request model requires both fields to be present
strings — a missing or non-string field is rejected by validation before any
transaction is opened, as a client error with no persistence side effects —
but no minimum length is enforced: any present string is accepted for
`sender_name`, the empty string included. -/
theorem request_validation (rq : RawRequest) (now : Nat) (s : DBState) :
    (∀ e, parseMessageRequest rq = Except.error e →
      serveRaw rq now s = (s, Except.error e)) ∧
    ((rq.sender_name = none ∨ rq.text = none) →
      parseMessageRequest rq = Except.error "validation error") ∧
    (∀ name text : String,
      parseMessageRequest ⟨some (.str name), some (.str text)⟩
        = Except.ok ⟨name, text⟩) := by
  refine ⟨?_, ?_, fun name text => rfl⟩
  · intro e he
    simp [serveRaw, he]
  · intro hmiss
    obtain ⟨sn, tx⟩ := rq
    rcases hmiss with hm | hm
    · simp only at hm
      subst hm
      rfl
    · simp only at hm
      subst hm
      cases sn with
      | none => rfl
      | some fv =>
          cases fv with
          | str a => rfl
          | nonString => rfl

/-- C7 counterexample: the code does not require `sender_name` to be
non-empty. A request whose `sender_name` is the empty string passes
validation, opens the transaction, and persists a message — so the claim
that the input must be a non-empty string (and that such inputs are
rejected with no side effects) is false of the code. -/
theorem empty_sender_accepted :
    parseMessageRequest ⟨some (.str ""), some (.str "hi")⟩
      = Except.ok ⟨"", "hi"⟩ ∧
    (serveRaw ⟨some (.str ""), some (.str "hi")⟩ 0 initialState).1
      ≠ initialState ∧
    (serveRaw ⟨some (.str ""), some (.str "hi")⟩ 0 initialState).2
      = Except.ok [⟨1, "", "hi", 0, 1⟩] := by
  refine ⟨rfl, ?_, rfl⟩
  decide

/-- Witness for C2 at a concrete call: the first message accepted from the
empty store. -/
theorem recent_window_spec_witness :
    (let r : TxResult := ⟨⟨[⟨1, "a", 1⟩], [⟨1, "a", "t", 0, 1⟩], 2, 2⟩,
        [⟨1, "a", "t", 0, 1⟩], 0, 1, 1⟩
    r.window.length ≤ 10 ∧
    (∀ m ∈ r.window, m.message_id ≤ r.newMessageId) ∧
    r.window.Pairwise geMsg ∧
    ((r.state.messages.filter
        (fun m => m.message_id ≤ r.newMessageId)).length ≤ 10 →
      r.window.Perm (r.state.messages.filter
        (fun m => m.message_id ≤ r.newMessageId)))) :=
  recent_window_spec ⟨"a", "t"⟩ 0 initialState _ rfl

/-- Witness for C4 at a concrete call: the very first request of a fresh
sender name on the empty store. -/
theorem first_message_new_sender_witness :
    findUserForUpdate (runTrace [] initialState).users "bob" = none ∧
    (∃ r : TxResult,
      post_message ⟨"bob", "x"⟩ 0 (runTrace [] initialState) = Except.ok r ∧
      r.preCounter = 0 ∧ r.assignedSeq = 1 ∧
      ((r.state.users.filter (fun u => u.username == "bob")).map
        (fun u => u.last_msg_num)) = [1] ∧
      ((r.state.messages.filter (fun m => m.sender_name == "bob")).map
        (fun m => m.user_msg_num)) = [1]) :=
  ⟨rfl, first_message_new_sender [] ⟨"bob", "x"⟩ 0 rfl⟩

/-- Witness for C8 at concrete stores: the same two rows in both physical
orders. -/
theorem recentWindow_deterministic_witness :
    ([⟨1, "a", "x", 0, 1⟩, ⟨2, "b", "y", 0, 1⟩] : List MessageRec).Perm
        [⟨2, "b", "y", 0, 1⟩, ⟨1, "a", "x", 0, 1⟩] ∧
    (([⟨1, "a", "x", 0, 1⟩, ⟨2, "b", "y", 0, 1⟩] : List MessageRec).map
        (fun m => m.message_id)).Nodup ∧
    recentWindow [⟨1, "a", "x", 0, 1⟩, ⟨2, "b", "y", 0, 1⟩] 2
      = recentWindow [⟨2, "b", "y", 0, 1⟩, ⟨1, "a", "x", 0, 1⟩] 2 := by
  refine ⟨?_, by decide, ?_⟩
  · exact List.Perm.swap _ _ _
  · exact recentWindow_deterministic _ _ 2 (List.Perm.swap _ _ _) (by decide)

/-- Witness for C9 at a concrete call: the first message accepted from the
empty store heads its own window. -/
theorem window_head_is_inserted_witness :
    (let r : TxResult := ⟨⟨[⟨1, "a", 1⟩], [⟨1, "a", "t", 0, 1⟩], 2, 2⟩,
        [⟨1, "a", "t", 0, 1⟩], 0, 1, 1⟩
    r.window.head? = some ⟨r.newMessageId, "a", "t", 0, r.assignedSeq⟩) :=
  window_head_is_inserted [] ⟨"a", "t"⟩ 0 _ rfl

/-- Witness for C10 at a concrete call. -/
theorem window_strictly_descending_witness :
    (let r : TxResult := ⟨⟨[⟨1, "a", 1⟩], [⟨1, "a", "t", 0, 1⟩], 2, 2⟩,
        [⟨1, "a", "t", 0, 1⟩], 0, 1, 1⟩
    r.window.Pairwise gtMsg ∧
    (r.window.map (fun m => m.message_id)).Nodup) :=
  window_strictly_descending [] ⟨"a", "t"⟩ 0 _ rfl
